import Mathlib

/-!
Verification of the event-log decoding core of `ethabi-decode`
(`src/event.rs`).

The embedding translates `Event::decode` and its helpers into Lean.
External collaborators (the generic ABI value decoder, the keccak-256
hash, the token representation) are out of scope for the crate and are
modelled at their interface: the token type is a type parameter, the
generic decoder and the hash are function parameters.

Modelling conventions:
* `H256` (a 32-byte hash / topic) is a list of bytes; no claim depends
  on the length being exactly 32, so the length invariant is not carried.
* `BTreeMap<usize, Token>` built from an iterator keeps, for a duplicate
  key, the last inserted value; `btreeGet` models this by looking the key
  up in the reversed association list.
* the Rust indexing `named_tokens[&i]`, which panics on a missing key,
  is modelled by an outer `Option` layer on the result of `decode`:
  `none` is a panic, `some r` is a normal return of `r`.
-/

namespace EthabiDecode

/-- A 32-byte word (topic or hash), modelled as its byte list. -/
abbrev H256 : Type := List Nat

/-- ABI type descriptors (crate type `ParamType`, external to `event.rs`,
listed in the data model of the spec: integers, address, bool, fixed-size
bytes, dynamic bytes, string, dynamic array, fixed array, tuple). -/
inductive ParamType : Type where
  | Address : ParamType
  | Bytes : ParamType
  | Int : Nat → ParamType
  | Uint : Nat → ParamType
  | Bool : ParamType
  | String : ParamType
  | FixedBytes : Nat → ParamType
  | Array : ParamType → ParamType
  | FixedArray : ParamType → Nat → ParamType
  | Tuple : List ParamType → ParamType

/-- Decoding errors: `InvalidData` is raised by `Event::decode` itself;
`Other` stands for the remaining variants of the `Error` type of the crate,
which only the external generic decoder produces here. -/
inductive Error : Type where
  | InvalidData : Error
  | Other : Nat → Error
deriving DecidableEq

/-- Event param specification (`Param` in `event.rs`). -/
structure Param : Type where
  kind : ParamType
  indexed : Bool

/-- Contract event (`Event` in `event.rs`). -/
structure Event : Type where
  signature : String
  inputs : List Param
  anonymous : Bool

section Decode

-- The token type is external to the core; the development is generic in it.
variable {Token : Type}

/-- Hash of the signature string (`Event::signature_keccak256`), with the
keccak-256 primitive passed as the external collaborator it is. -/
def Event.signature_keccak256 (e : Event) (keccak : String → H256) : H256 :=
  keccak e.signature

/-- Filter of the parameters whose `indexed` flag matches
(`Event::indexed_params`), kept
in declaration order. -/
def Event.indexed_params (e : Event) (b : Bool) : List Param :=
  e.inputs.filter (fun p => p.indexed == b)

/-- Positions (0-based, original) of the parameters (`Event::indices`),
whose `indexed` flag matches, in increasing order. -/
def Event.indices (e : Event) (b : Bool) : List Nat :=
  (e.inputs.enum.filter (fun ip => ip.2.indexed == b)).map Prod.fst

/-- Rewrite of a topic-routed type (`Event::convert_topic_param_type`);
dynamically-sized shapes become an opaque 32-byte value. -/
def Event.convert_topic_param_type (_e : Event) (kind : ParamType) : ParamType :=
  match kind with
  | ParamType.String => ParamType.FixedBytes 32
  | ParamType.Bytes => ParamType.FixedBytes 32
  | ParamType.Array _ => ParamType.FixedBytes 32
  | ParamType.FixedArray _ _ => ParamType.FixedBytes 32
  | ParamType.Tuple _ => ParamType.FixedBytes 32
  | other => other

/-- The `topic_types` vector of `Event::decode`: indexed parameter types
after the topic substitution. -/
def Event.topicTypes (e : Event) : List ParamType :=
  (e.indexed_params true).map (fun p => e.convert_topic_param_type p.kind)

/-- The `data_types` vector of `Event::decode`: non-indexed parameter
types, unchanged. -/
def Event.dataTypes (e : Event) : List ParamType :=
  (e.indexed_params false).map (fun p => p.kind)

/-- The `flat_topics` buffer of `Event::decode`: the bytes of the topics
after the first `to_skip`, concatenated in order. -/
def flatTopics (topics : List H256) (to_skip : Nat) : List Nat :=
  List.flatten (topics.drop to_skip)

/-- The `to_skip` computation of `Event::decode` (lines 84–93): 0 for an
anonymous event; otherwise the first topic must exist and equal the
signature hash, and one topic is skipped. -/
def Event.toSkip (e : Event) (keccak : String → H256) (topics : List H256) :
    Except Error Nat :=
  if e.anonymous then Except.ok 0
  else
    match topics.head? with
    | none => Except.error Error.InvalidData
    | some event_signature =>
        if event_signature = e.signature_keccak256 keccak then Except.ok 1
        else Except.error Error.InvalidData

/-- Lookup in the `BTreeMap` collected from an iterator of key/value
pairs: for a duplicate key the last inserted pair wins, hence the lookup
runs over the reversed list. -/
def btreeGet {β : Type} (l : List (Nat × β)) (k : Nat) : Option β :=
  List.lookup k l.reverse

/-- The body of `Event::decode` after `to_skip` has been determined
(lines 95–120).  `ext` is the external generic decoder `decode`. -/
def Event.decodeWithSkip (e : Event)
    (ext : List ParamType → List Nat → Except Error (List Token))
    (topics : List H256) (data : List Nat) (to_skip : Nat) :
    Option (Except Error (List Token)) :=
  let topics_len := topics.length
  let topic_params_index := e.indices true
  let data_params_index := e.indices false
  let topic_types := e.topicTypes
  let flat_topics := flatTopics topics to_skip
  match ext topic_types flat_topics with
  | Except.error err => some (Except.error err)
  | Except.ok topic_tokens =>
      if topic_tokens.length ≠ topics_len - to_skip then
        some (Except.error Error.InvalidData)
      else
        let topics_named_tokens := topic_params_index.zip topic_tokens
        match ext e.dataTypes data with
        | Except.error err => some (Except.error err)
        | Except.ok data_tokens =>
            let data_named_tokens := data_params_index.zip data_tokens
            let named_tokens := topics_named_tokens ++ data_named_tokens
            match (List.range e.inputs.length).mapM
                (fun i => btreeGet named_tokens i) with
            | none => none
            | some tokens => some (Except.ok tokens)

/-- Decoding of a log (`Event::decode`, lines 74–121): determine `to_skip`, then run the
rest of the body.  `none` models the panic of the `named_tokens[&i]`
lookup on a missing key. -/
def Event.decode (e : Event)
    (ext : List ParamType → List Nat → Except Error (List Token))
    (keccak : String → H256) (topics : List H256) (data : List Nat) :
    Option (Except Error (List Token)) :=
  match e.toSkip keccak topics with
  | Except.error err => some (Except.error err)
  | Except.ok to_skip => e.decodeWithSkip ext topics data to_skip

/-- Embedding of the `&mut self` receiver of `Event::decode`: the call
through a mutable handle returns the final state of the receiver next to the
result.  No statement of the body assigns to a field of `self`, so the
final state is the initial one. -/
def Event.decodeMut (e : Event)
    (ext : List ParamType → List Nat → Except Error (List Token))
    (keccak : String → H256) (topics : List H256) (data : List Nat) :
    Event × Option (Except Error (List Token)) :=
  (e, e.decode ext keccak topics data)

/-- The class of type tags the spec singles out as not topic-encodable in
full (dynamic byte sequences, strings, dynamic arrays, fixed-size arrays,
tuples), written from the words of the spec for comparison with the
`convert_topic_param_type`. -/
def specDynamicTag : ParamType → Bool
  | ParamType.Bytes => true
  | ParamType.String => true
  | ParamType.Array _ => true
  | ParamType.FixedArray _ _ => true
  | ParamType.Tuple _ => true
  | _ => false

end Decode

/-! Concrete instances used to exercise the definitions. -/

/-- A concrete stand-in for the keccak-256 collaborator. -/
def kecW : String → H256 := fun _ => List.replicate 32 9

/-- A second, different concrete hash function. -/
def kecW2 : String → H256 := fun _ => List.replicate 32 8

/-- A concrete external generic decoder honouring the collaborator
contract: one token per requested type (the token records the byte-buffer
length and the position, so topic- and data-derived tokens are
distinguishable). -/
def extW : List ParamType → List Nat → Except Error (List Nat) :=
  fun tys bs => Except.ok ((List.range tys.length).map (fun i => 100 * bs.length + i))

/-- A concrete external decoder that rejects every input. -/
def extErrW : List ParamType → List Nat → Except Error (List Nat) :=
  fun _ _ => Except.error (Error.Other 0)

/-- A concrete non-anonymous event with interleaved indexed flags. -/
def evW : Event :=
  { signature := "foo(int256,address,string)"
    inputs := [⟨ParamType.Int 256, false⟩, ⟨ParamType.Address, true⟩,
               ⟨ParamType.String, true⟩]
    anonymous := false }

/-- A concrete anonymous event. -/
def evAnonW : Event :=
  { signature := "bar(bool)"
    inputs := [⟨ParamType.Bool, true⟩]
    anonymous := true }

/-- A topic equal to `kecW` of any signature. -/
def topicW : H256 := List.replicate 32 9

/-- A topic differing from `kecW` of any signature. -/
def topicBadW : H256 := List.replicate 32 8

/-- A concrete topic list for `evW`: signature topic plus one topic per
indexed parameter. -/
def topicsW : List H256 := [topicW, List.replicate 32 1, List.replicate 32 2]

/-- A concrete data payload. -/
def dataW : List Nat := [5]

/-- The tokens `evW.decode extW kecW topicsW dataW` returns. -/
def toksW : List Nat := [100, 6400, 6401]

/-- A concrete two-topic list for an anonymous event. -/
def topics2W : List H256 := [List.replicate 32 1, List.replicate 32 2]

section Theorems

variable {Token : Type}

/-! Generic lemmas about association-list lookup, `zip` and `mapM` over
`Option`, used for the reassembly step of `decode`. -/

theorem lookup_append {β : Type} (l₁ l₂ : List (Nat × β)) (k : Nat) :
    List.lookup k (l₁ ++ l₂) =
      (List.lookup k l₁).orElse (fun _ => List.lookup k l₂) := by
  induction l₁ with
  | nil => simp [List.lookup]
  | cons p l ih =>
      obtain ⟨k₀, v⟩ := p
      by_cases hk : k = k₀
      · have hkb : (k == k₀) = true := by simp [hk]
        simp [List.lookup_cons, hkb]
      · have hkb : (k == k₀) = false := by simp [hk]
        simp [List.lookup_cons, hkb, ih]

theorem lookup_eq_none_of_keys_ne {β : Type} (l : List (Nat × β)) (k : Nat)
    (h : ∀ p ∈ l, p.1 ≠ k) : List.lookup k l = none := by
  induction l with
  | nil => rfl
  | cons p l ih =>
      obtain ⟨k₀, v⟩ := p
      have hk : k ≠ k₀ := fun he => h (k₀, v) (by simp) (by simp [he])
      have hkb : (k == k₀) = false := by simp [hk]
      simp only [List.lookup_cons, hkb]
      exact ih (fun q hq => h q (List.mem_cons_of_mem _ hq))

theorem lookup_reverse_of_nodup_keys {β : Type} (l : List (Nat × β)) (k : Nat)
    (h : (l.map Prod.fst).Nodup) :
    List.lookup k l.reverse = List.lookup k l := by
  induction l with
  | nil => rfl
  | cons p l ih =>
      obtain ⟨k₀, v⟩ := p
      have hnd : (l.map Prod.fst).Nodup := (List.nodup_cons.mp (by simpa using h)).2
      have hk₀ : k₀ ∉ l.map Prod.fst := (List.nodup_cons.mp (by simpa using h)).1
      rw [List.reverse_cons, lookup_append]
      by_cases hk : k = k₀
      · subst hk
        have hkb : (k == k) = true := by simp
        have hrev : List.lookup k l.reverse = none := by
          apply lookup_eq_none_of_keys_ne
          intro q hq he
          exact hk₀ (he ▸ List.mem_map_of_mem Prod.fst (List.mem_reverse.mp hq))
        simp [hrev, List.lookup_cons, hkb]
      · have hkb : (k == k₀) = false := by simp [hk]
        have hone : List.lookup k [(k₀, v)] = none := by
          simp [List.lookup_cons, hkb, List.lookup]
        rw [ih hnd, hone]
        cases hl : List.lookup k l <;>
          simp [List.lookup_cons, hkb, hl, Option.orElse]

theorem lookup_zip_of_mem {β : Type} (idx : List Nat) (i : Nat)
    (hnd : idx.Nodup) (hmem : i ∈ idx) :
    ∀ xs : List β, List.lookup i (idx.zip xs) = xs.get? (idx.indexOf i) := by
  induction idx with
  | nil => cases hmem
  | cons j idx ih =>
      intro xs
      cases xs with
      | nil => simp [List.lookup]
      | cons x xs =>
          by_cases hij : i = j
          · subst hij
            have hib : (i == i) = true := by simp
            simp [List.lookup_cons, List.indexOf_cons, hib]
          · have hmem' : i ∈ idx := (List.mem_cons.mp hmem).resolve_left hij
            have hji : (j == i) = false := by
              simp [Ne.symm hij]
            have hij' : (i == j) = false := by simp [hij]
            simp only [List.zip_cons_cons, List.lookup_cons, hij',
              List.indexOf_cons, hji, cond_false]
            rw [ih (List.nodup_cons.mp hnd).2 hmem' xs]
            simp

theorem lookup_zip_eq_none_of_not_mem {β : Type} (idx : List Nat) (xs : List β)
    (i : Nat) (hmem : i ∉ idx) :
    List.lookup i (idx.zip xs) = none := by
  apply lookup_eq_none_of_keys_ne
  intro q hq he
  obtain ⟨a, b⟩ := q
  exact hmem (he ▸ (List.of_mem_zip hq).1)

theorem mapM_option_cons_eq_some {α β : Type} (f : α → Option β) (a : α)
    (l : List α) (ys : List β) (h : (a :: l).mapM f = some ys) :
    ∃ b bs, f a = some b ∧ l.mapM f = some bs ∧ ys = b :: bs := by
  rw [List.mapM_cons] at h
  cases hfa : f a with
  | none => rw [hfa] at h; simp at h
  | some b =>
      rw [hfa] at h
      cases hml : l.mapM f with
      | none => rw [hml] at h; simp at h
      | some bs =>
          rw [hml] at h
          simp at h
          exact ⟨b, bs, rfl, rfl, h.symm⟩

theorem mapM_option_length {α β : Type} (f : α → Option β) :
    ∀ (l : List α) (ys : List β), l.mapM f = some ys → ys.length = l.length := by
  intro l
  induction l with
  | nil =>
      intro ys h
      rw [List.mapM_nil] at h
      rw [← Option.some.inj h]
      rfl
  | cons a l ih =>
      intro ys h
      obtain ⟨b, bs, _, hml, rfl⟩ := mapM_option_cons_eq_some f a l ys h
      simp [ih bs hml]

theorem mapM_option_get? {α β : Type} (f : α → Option β) :
    ∀ (l : List α) (ys : List β), l.mapM f = some ys →
      ∀ i, ys.get? i = (l.get? i).bind f := by
  intro l
  induction l with
  | nil =>
      intro ys h i
      rw [List.mapM_nil] at h
      rw [← Option.some.inj h]
      simp
  | cons a l ih =>
      intro ys h i
      obtain ⟨b, bs, hfa, hml, rfl⟩ := mapM_option_cons_eq_some f a l ys h
      cases i with
      | zero => simp [hfa]
      | succ n => simpa using ih bs hml n

theorem mapM_option_isSome {α β : Type} (f : α → Option β) :
    ∀ l : List α, (∀ a ∈ l, (f a).isSome) → (l.mapM f).isSome := by
  intro l
  induction l with
  | nil =>
      intro _
      rw [List.mapM_nil]
      rfl
  | cons a l ih =>
      intro h
      obtain ⟨b, hb⟩ := Option.isSome_iff_exists.mp (h a (by simp))
      obtain ⟨bs, hbs⟩ := Option.isSome_iff_exists.mp
        (ih (fun x hx => h x (List.mem_cons_of_mem _ hx)))
      rw [List.mapM_cons, hb, hbs]
      simp

theorem zip_map_fst_sublist {α β : Type} :
    ∀ (l₁ : List α) (l₂ : List β), ((l₁.zip l₂).map Prod.fst).Sublist l₁
  | [], _ => by simp
  | _ :: _, [] => by simp
  | a :: l₁, b :: l₂ => by
      simpa using (zip_map_fst_sublist l₁ l₂).cons₂ a

/-! Lemmas about the parameter partition of `Event::decode`. -/

theorem indices_nodup (e : Event) (b : Bool) : (e.indices b).Nodup :=
  ((List.filter_sublist _).map Prod.fst).nodup (List.nodup_enum_map_fst _)

theorem mem_indices_iff (e : Event) (b : Bool) (i : Nat) :
    i ∈ e.indices b ↔ ∃ q, e.inputs.get? i = some q ∧ q.indexed = b := by
  unfold Event.indices
  constructor
  · intro h
    obtain ⟨⟨i', q⟩, hmem, rfl⟩ := List.mem_map.mp h
    obtain ⟨henum, hb⟩ := List.mem_filter.mp hmem
    exact ⟨q, List.mem_enum_iff_get?.mp henum, by simpa using hb⟩
  · rintro ⟨q, hq, hb⟩
    apply List.mem_map.mpr
    exact ⟨(i, q), List.mem_filter.mpr
      ⟨List.mem_enum_iff_get?.mpr hq, by simp [hb]⟩, rfl⟩

theorem filter_snd_zip_length {α : Type} (q : α → Bool) :
    ∀ (ns : List Nat) (l : List α), ns.length = l.length →
      ((ns.zip l).filter (fun ip => q ip.2)).length = (l.filter q).length
  | [], [], _ => rfl
  | [], _ :: _, h => by simp at h
  | _ :: _, [], h => by simp at h
  | n :: ns, a :: l, h => by
      have h' : ns.length = l.length := by simpa using h
      have ih := filter_snd_zip_length q ns l h'
      rw [List.zip_cons_cons, List.filter_cons, List.filter_cons]
      cases hqa : q a
      · simpa [hqa] using ih
      · simpa [hqa] using ih

theorem indices_length (e : Event) (b : Bool) :
    (e.indices b).length = (e.indexed_params b).length := by
  unfold Event.indices Event.indexed_params
  rw [List.length_map, List.enum_eq_zip_range]
  exact filter_snd_zip_length (fun p => p.indexed == b)
    (List.range e.inputs.length) e.inputs (by simp)

theorem topicTypes_length (e : Event) :
    e.topicTypes.length = (e.indices true).length := by
  unfold Event.topicTypes
  rw [List.length_map]
  exact (indices_length e true).symm

theorem dataTypes_length (e : Event) :
    e.dataTypes.length = (e.indices false).length := by
  unfold Event.dataTypes
  rw [List.length_map]
  exact (indices_length e false).symm

/-- Reading the merged `BTreeMap` at an original parameter position
returns the positionally matching token of the topic group when the
parameter is indexed, of the data group otherwise. -/
theorem btreeGet_named (e : Event) (tt dt : List Token) (i : Nat) (p : Param)
    (hp : e.inputs.get? i = some p) :
    btreeGet ((e.indices true).zip tt ++ (e.indices false).zip dt) i =
      (if p.indexed then tt.get? ((e.indices true).indexOf i)
       else dt.get? ((e.indices false).indexOf i)) := by
  have hnot : ∀ b : Bool, p.indexed = b → i ∉ e.indices (!b) := by
    intro b hb hmem
    obtain ⟨q, hq, hqb⟩ := (mem_indices_iff e (!b) i).mp hmem
    rw [hp] at hq
    cases Option.some.inj hq
    rw [hb] at hqb
    cases b <;> simp at hqb
  have hrevnone : ∀ (b : Bool) (xs : List Token), i ∉ e.indices b →
      List.lookup i ((e.indices b).zip xs).reverse = none := by
    intro b xs hni
    apply lookup_eq_none_of_keys_ne
    intro q hq he
    obtain ⟨a, c⟩ := q
    exact hni (he ▸ (List.of_mem_zip (List.mem_reverse.mp hq)).1)
  have hrevlook : ∀ (b : Bool) (xs : List Token), i ∈ e.indices b →
      List.lookup i ((e.indices b).zip xs).reverse =
        xs.get? ((e.indices b).indexOf i) := by
    intro b xs hi
    rw [lookup_reverse_of_nodup_keys _ _
      ((zip_map_fst_sublist _ _).nodup (indices_nodup e b))]
    exact lookup_zip_of_mem _ _ (indices_nodup e b) hi xs
  unfold btreeGet
  rw [List.reverse_append, lookup_append]
  cases hb : p.indexed with
  | true =>
      have hmemT : i ∈ e.indices true := (mem_indices_iff e true i).mpr ⟨p, hp, hb⟩
      have h1 : List.lookup i ((e.indices false).zip dt).reverse = none :=
        hrevnone false dt (by simpa using hnot true hb)
      rw [h1, hrevlook true tt hmemT]
      simp [Option.orElse]
  | false =>
      have hmemF : i ∈ e.indices false := (mem_indices_iff e false i).mpr ⟨p, hp, hb⟩
      have h2 : List.lookup i ((e.indices true).zip tt).reverse = none :=
        hrevnone true tt (by simpa using hnot false hb)
      rw [hrevlook false dt hmemF, h2]
      cases hdi : dt.get? ((e.indices false).indexOf i) <;> simp [Option.orElse]

/-- C6: the indexed-type substitution rewrites exactly the
dynamic-byte-sequence, string, dynamic-array, fixed-size-array and tuple
type tags to the fixed 32-byte-value type `FixedBytes 32`, and maps every
other type tag to itself unchanged. -/
theorem convert_topic_param_type_spec (e : Event) (kind : ParamType) :
    e.convert_topic_param_type kind =
      if specDynamicTag kind then ParamType.FixedBytes 32 else kind := by
  cases kind <;> rfl

/-- C10: the indexed-type substitution is idempotent; in particular its
image `FixedBytes 32` is a fixed point. -/
theorem convert_topic_param_type_idem (e : Event) (kind : ParamType) :
    e.convert_topic_param_type (e.convert_topic_param_type kind) =
      e.convert_topic_param_type kind := by
  cases kind <;> rfl

/-- C8: decoding leaves the schema unchanged — the signature, parameter
list and anonymity flag of the receiver returned by the call through the
mutable handle equal their values before the call, whatever the result. -/
theorem decodeMut_preserves_schema (e : Event)
    (ext : List ParamType → List Nat → Except Error (List Token))
    (keccak : String → H256) (topics : List H256) (data : List Nat) :
    (e.decodeMut ext keccak topics data).1.signature = e.signature ∧
    (e.decodeMut ext keccak topics data).1.inputs = e.inputs ∧
    (e.decodeMut ext keccak topics data).1.anonymous = e.anonymous :=
  ⟨rfl, rfl, rfl⟩

/-- C4: for a non-anonymous event and an empty topic list, decoding
fails with `InvalidData`, for every data payload. -/
theorem decode_missing_topic (e : Event)
    (ext : List ParamType → List Nat → Except Error (List Token))
    (keccak : String → H256) (data : List Nat)
    (h : e.anonymous = false) :
    e.decode ext keccak [] data = some (Except.error Error.InvalidData) := by
  simp [Event.decode, Event.toSkip, h]

/-- Witness for C4 at a concrete schema and payload. -/
theorem decode_missing_topic_witness :
    evW.anonymous = false ∧
    evW.decode extW kecW [] dataW = some (Except.error Error.InvalidData) :=
  ⟨rfl, decode_missing_topic evW extW kecW dataW rfl⟩

/-- C3: for a non-anonymous event and a non-empty topic list whose first
entry differs from the keccak-256 hash of the signature string, decoding
fails with `InvalidData`, for every data payload and remaining topics. -/
theorem decode_signature_mismatch (e : Event)
    (ext : List ParamType → List Nat → Except Error (List Token))
    (keccak : String → H256) (t : H256) (ts : List H256) (data : List Nat)
    (h1 : e.anonymous = false) (h2 : t ≠ keccak e.signature) :
    e.decode ext keccak (t :: ts) data = some (Except.error Error.InvalidData) := by
  simp [Event.decode, Event.toSkip, Event.signature_keccak256, h1, h2]

/-- Witness for C3 at a concrete schema, wrong first topic and payload. -/
theorem decode_signature_mismatch_witness :
    evW.anonymous = false ∧ topicBadW ≠ kecW evW.signature ∧
    evW.decode extW kecW [topicBadW] dataW = some (Except.error Error.InvalidData) :=
  ⟨rfl, by decide,
    decode_signature_mismatch evW extW kecW topicBadW [] dataW rfl (by decide)⟩

/-- C9: when the first topic of a non-anonymous event mismatches the
signature hash, decoding returns `InvalidData` independently of the
external decoder and of the data payload — the signature check precedes
both external decoder invocations. -/
theorem decode_signature_checked_first (e : Event)
    (ext1 ext2 : List ParamType → List Nat → Except Error (List Token))
    (keccak : String → H256) (t : H256) (ts : List H256) (data1 data2 : List Nat)
    (h1 : e.anonymous = false) (h2 : t ≠ keccak e.signature) :
    e.decode ext1 keccak (t :: ts) data1 = some (Except.error Error.InvalidData) ∧
    e.decode ext1 keccak (t :: ts) data1 = e.decode ext2 keccak (t :: ts) data2 := by
  constructor <;>
    simp [Event.decode, Event.toSkip, Event.signature_keccak256, h1, h2]

/-- Witness for C9: the result is `InvalidData` both for a decoder that
would succeed and for one that rejects everything. -/
theorem decode_signature_checked_first_witness :
    evW.anonymous = false ∧ topicBadW ≠ kecW evW.signature ∧
    evW.decode extW kecW [topicBadW] dataW = some (Except.error Error.InvalidData) ∧
    evW.decode extW kecW [topicBadW] dataW = evW.decode extErrW kecW [topicBadW] [] := by
  have h := decode_signature_checked_first evW extW extErrW kecW topicBadW [] dataW []
    rfl (by decide)
  exact ⟨rfl, by decide, h.1, h.2⟩

/-- C5: for an anonymous event no signature topic is read or validated:
the skip count is 0, decoding coincides with the post-skip body at skip
0 (whose topic bytes are the flattening of all topics from index 0), and
the result does not depend on the hash function at all. -/
theorem decode_anonymous_skip (e : Event)
    (ext : List ParamType → List Nat → Except Error (List Token))
    (keccak keccak2 : String → H256) (topics : List H256) (data : List Nat)
    (h : e.anonymous = true) :
    e.toSkip keccak topics = Except.ok 0 ∧
    e.decode ext keccak topics data = e.decodeWithSkip ext topics data 0 ∧
    flatTopics topics 0 = List.flatten topics ∧
    e.decode ext keccak topics data = e.decode ext keccak2 topics data := by
  have hs : ∀ k : String → H256, e.toSkip k topics = Except.ok 0 := fun k => by
    simp [Event.toSkip, h]
  refine ⟨hs keccak, ?_, rfl, ?_⟩
  · simp [Event.decode, hs keccak]
  · simp [Event.decode, hs keccak, hs keccak2]

/-- Witness for C5 at a concrete anonymous schema and two different hash
functions. -/
theorem decode_anonymous_skip_witness :
    evAnonW.anonymous = true ∧
    evAnonW.toSkip kecW [List.replicate 32 1] = Except.ok 0 ∧
    evAnonW.decode extW kecW [List.replicate 32 1] [] =
      evAnonW.decodeWithSkip extW [List.replicate 32 1] [] 0 ∧
    flatTopics [List.replicate 32 1] 0 = List.flatten [List.replicate 32 1] ∧
    evAnonW.decode extW kecW [List.replicate 32 1] [] =
      evAnonW.decode extW kecW2 [List.replicate 32 1] [] := by
  have h := decode_anonymous_skip evAnonW extW kecW kecW2 [List.replicate 32 1] [] rfl
  exact ⟨rfl, h.1, h.2.1, h.2.2.1, h.2.2.2⟩

/-- C7: if the external decoder call over the flattened topic bytes
succeeds but returns a token count different from the topic count minus
the skip count, decoding fails with `InvalidData`. -/
theorem decode_count_mismatch (e : Event)
    (ext : List ParamType → List Nat → Except Error (List Token))
    (keccak : String → H256) (topics : List H256) (data : List Nat)
    (s : Nat) (tt : List Token)
    (h1 : e.toSkip keccak topics = Except.ok s)
    (h2 : ext e.topicTypes (flatTopics topics s) = Except.ok tt)
    (h3 : tt.length ≠ topics.length - s) :
    e.decode ext keccak topics data = some (Except.error Error.InvalidData) := by
  simp [Event.decode, h1, Event.decodeWithSkip, h2, h3]

/-- Witness for C7: an anonymous event with one indexed parameter but two
topics; the decoder returns one token while two topic slots exist. -/
theorem decode_count_mismatch_witness :
    evAnonW.toSkip kecW topics2W = Except.ok 0 ∧
    extW evAnonW.topicTypes (flatTopics topics2W 0) = Except.ok [6400] ∧
    ([6400] : List Nat).length ≠ topics2W.length - 0 ∧
    evAnonW.decode extW kecW topics2W [] = some (Except.error Error.InvalidData) :=
  ⟨rfl, rfl, by decide,
    decode_count_mismatch evAnonW extW kecW topics2W [] 0 [6400] rfl rfl (by decide)⟩

/-- Inversion of a successful `decode`: the skip computation, both
external decoder calls and the reassembly all succeeded, and the topic
token count matched. -/
theorem decode_ok_cases (e : Event)
    (ext : List ParamType → List Nat → Except Error (List Token))
    (keccak : String → H256) (topics : List H256) (data : List Nat)
    (tokens : List Token)
    (h : e.decode ext keccak topics data = some (Except.ok tokens)) :
    ∃ s tt dt,
      e.toSkip keccak topics = Except.ok s ∧
      ext e.topicTypes (flatTopics topics s) = Except.ok tt ∧
      tt.length = topics.length - s ∧
      ext e.dataTypes data = Except.ok dt ∧
      (List.range e.inputs.length).mapM
        (fun i => btreeGet ((e.indices true).zip tt ++ (e.indices false).zip dt) i)
        = some tokens := by
  unfold Event.decode at h
  split at h
  next err hsk => simp at h
  next s hsk =>
      simp only [Event.decodeWithSkip] at h
      split at h
      next err hT => simp at h
      next tt hT =>
          split at h
          next hlen => simp at h
          next hlen =>
              split at h
              next err hD => simp at h
              next dt hD =>
                  split at h
                  next hM => simp at h
                  next ts hM =>
                      simp at h
                      exact ⟨s, tt, dt, hsk, hT, by simpa using hlen, hD,
                        h ▸ hM⟩

/-- C1: whenever `decode` returns successfully, the token sequence has
one entry per declared parameter, and the i-th entry is the positionally
matching token of the topic group when parameter i is indexed, of the
data group otherwise — independent of the indexed/non-indexed
interleaving. -/
theorem decode_order_preservation (e : Event)
    (ext : List ParamType → List Nat → Except Error (List Token))
    (keccak : String → H256) (topics : List H256) (data : List Nat)
    (tokens : List Token)
    (h : e.decode ext keccak topics data = some (Except.ok tokens)) :
    tokens.length = e.inputs.length ∧
    ∃ s tt dt,
      e.toSkip keccak topics = Except.ok s ∧
      ext e.topicTypes (flatTopics topics s) = Except.ok tt ∧
      ext e.dataTypes data = Except.ok dt ∧
      ∀ i p, e.inputs.get? i = some p →
        tokens.get? i =
          (if p.indexed then tt.get? ((e.indices true).indexOf i)
           else dt.get? ((e.indices false).indexOf i)) := by
  obtain ⟨s, tt, dt, hsk, hT, _, hD, hM⟩ :=
    decode_ok_cases e ext keccak topics data tokens h
  refine ⟨?_, s, tt, dt, hsk, hT, hD, ?_⟩
  · rw [mapM_option_length _ _ _ hM, List.length_range]
  · intro i p hp
    obtain ⟨hi, _⟩ := List.get?_eq_some.mp hp
    have hget := mapM_option_get? _ _ _ hM i
    rw [List.get?_range hi] at hget
    simp only [Option.some_bind] at hget
    rw [hget, btreeGet_named e tt dt i p hp]

/-- Witness for C1 at a concrete schema with interleaved indexed flags:
`decode` succeeds with one token per parameter and the stated
correspondence. -/
theorem decode_order_preservation_witness :
    evW.decode extW kecW topicsW dataW = some (Except.ok toksW) ∧
    (toksW.length = evW.inputs.length ∧
     ∃ s tt dt,
       evW.toSkip kecW topicsW = Except.ok s ∧
       extW evW.topicTypes (flatTopics topicsW s) = Except.ok tt ∧
       extW evW.dataTypes dataW = Except.ok dt ∧
       ∀ i p, evW.inputs.get? i = some p →
         toksW.get? i =
           (if p.indexed then tt.get? ((evW.indices true).indexOf i)
            else dt.get? ((evW.indices false).indexOf i))) :=
  ⟨rfl, decode_order_preservation evW extW kecW topicsW dataW toksW rfl⟩

/-- C2: under the documented collaborator contract — a successful
external decoder call returns exactly one token per requested type —
`decode` is total on every input: it returns a result or an error and
never reaches the missing-key panic of the final reassembly. -/
theorem decode_total (e : Event)
    (ext : List ParamType → List Nat → Except Error (List Token))
    (keccak : String → H256) (topics : List H256) (data : List Nat)
    (hext : ∀ tys bs toks, ext tys bs = Except.ok toks → toks.length = tys.length) :
    e.decode ext keccak topics data ≠ none := by
  unfold Event.decode
  split
  next err hsk => simp
  next s hsk =>
      simp only [Event.decodeWithSkip]
      split
      next err hT => simp
      next tt hT =>
          split
          next hlen => simp
          next hlen =>
              split
              next err hD => simp
              next dt hD =>
                have htt : tt.length = (e.indices true).length := by
                  rw [hext _ _ _ hT, topicTypes_length]
                have hdt : dt.length = (e.indices false).length := by
                  rw [hext _ _ _ hD, dataTypes_length]
                have hall : ∀ i ∈ List.range e.inputs.length,
                    (btreeGet ((e.indices true).zip tt ++ (e.indices false).zip dt)
                      i).isSome := by
                  intro i hi
                  rw [List.mem_range] at hi
                  obtain ⟨p, hp⟩ : ∃ p, e.inputs.get? i = some p :=
                    ⟨e.inputs.get ⟨i, hi⟩, List.get?_eq_get hi⟩
                  rw [btreeGet_named e tt dt i p hp]
                  cases hb : p.indexed
                  · rw [if_neg (by simp [hb])]
                    have hmem : i ∈ e.indices false :=
                      (mem_indices_iff e false i).mpr ⟨p, hp, hb⟩
                    have hlt : (e.indices false).indexOf i < dt.length := by
                      rw [hdt]
                      exact List.indexOf_lt_length.mpr hmem
                    rw [List.get?_eq_get hlt]
                    rfl
                  · rw [if_pos (by simp [hb])]
                    have hmem : i ∈ e.indices true :=
                      (mem_indices_iff e true i).mpr ⟨p, hp, hb⟩
                    have hlt : (e.indices true).indexOf i < tt.length := by
                      rw [htt]
                      exact List.indexOf_lt_length.mpr hmem
                    rw [List.get?_eq_get hlt]
                    rfl
                have hsome := mapM_option_isSome _ _ hall
                obtain ⟨ts, hts⟩ := Option.isSome_iff_exists.mp hsome
                rw [hts]
                simp

/-- Witness for C2: the concrete external decoder honours the contract
and decoding a concrete log returns without a panic. -/
theorem decode_total_witness :
    (∀ tys bs toks, extW tys bs = Except.ok toks → toks.length = tys.length) ∧
    evW.decode extW kecW topicsW dataW ≠ none := by
  have hc : ∀ tys bs toks, extW tys bs = Except.ok toks → toks.length = tys.length := by
    intro tys bs toks h
    simp only [extW] at h
    rw [← Except.ok.inj h]
    simp
  exact ⟨hc, decode_total evW extW kecW topicsW dataW hc⟩

end Theorems

end EthabiDecode
